import Mathlib

/-!
Verification of the dynamic field sort-comparator pattern from
`examples/generics/generics.go` and the iterator example from
`examples/range-over-iterators/range-over-iterators.go`.

The Go code uses reflection (`reflect.ValueOf(x).FieldByName(name)`) to read a
struct field by name at run time.  We embed the reflected view of a record
directly: a `Record` is the association list of its (field name, value) pairs,
and `getField` is `FieldByName` (returning `none` for the invalid `Value` that
reflect yields when the field does not exist).  `goString`, `goInt` and
`goFloat` embed the corresponding `reflect.Value` accessors: `String()` never
panics and yields a `"<T Value>"` placeholder on non-string kinds, while
`Int()` / `Float()` panic on a kind mismatch, which we embed as `none`.
`float64` field values are modelled on `Rat` (an ordered field; NaN is outside
the scope of every claim, all of which restrict attention to well-formed
values).
-/

/-- A run-time field value as seen through `reflect`.  `ptr ty v` models a
pointer-typed field (static pointee type named `ty`, e.g. `"string"` for a
`*string` field) whose value is `nil` (`none`) or points to a value. -/
inductive Value where
  | str (s : String)
  | int (n : Int)
  | float (q : Rat)
  | bool (b : Bool)
  | ptr (ty : String) (v : Option Value)

/-- The reflected view of one record: its fields in declaration order. -/
abbrev Record := List (String × Value)

/-- `reflect.ValueOf(r).FieldByName(name)`; `none` is reflect's invalid
`Value`, returned when no field has that name. -/
def getField (r : Record) (name : String) : Option Value :=
  match r with
  | [] => none
  | (n, v) :: rest => if n = name then some v else getField rest name

/-- `reflect.Kind` restricted to the shapes occurring in this development. -/
inductive Kind where
  | invalid
  | str
  | int
  | float
  | bool
  | ptr
deriving DecidableEq

/-- `field.Kind()`, with `Kind()` of the invalid `Value` being `Invalid`. -/
def kindOf : Option Value → Kind
  | none => .invalid
  | some (.str _) => .str
  | some (.int _) => .int
  | some (.float _) => .float
  | some (.bool _) => .bool
  | some (.ptr _ _) => .ptr

/-- `field.String()`: the string for string kinds, and the documented
`"<T Value>"` placeholder for every other kind (never a panic).  For a given
field of a given record type the placeholder depends only on the static type,
so two records' placeholders for the same field are always equal. -/
def goString : Option Value → String
  | none => "<invalid Value>"
  | some (.str s) => s
  | some (.int _) => "<int Value>"
  | some (.float _) => "<float64 Value>"
  | some (.bool _) => "<bool Value>"
  | some (.ptr ty _) => "<*" ++ ty ++ " Value>"

/-- Go's `<` on strings (byte-lexicographic; on the valid-UTF-8 strings Lean
represents, byte order and codepoint order agree).  Lean's `String.lt` is by
definition the lexicographic order on the codepoint list `String.data`; we
decide it through the list-order instance, which is kernel-executable. -/
def strLtB (a b : String) : Bool := decide (a.data < b.data)

/-- `field.Int()`: the value for int kinds; panics (`none`) otherwise. -/
def goInt : Option Value → Option Int
  | some (.int n) => some n
  | _ => none

/-- `field.Float()`: the value for float kinds; panics (`none`) otherwise. -/
def goFloat : Option Value → Option Rat
  | some (.float q) => some q
  | _ => none

/-- `NewStringSorter[T](fieldName, ascending)` from `generics.go`: the returned
comparator extracts both fields with `FieldByName` + `String()` and compares
with Go's `<` / `>` on strings (byte-lexicographic; for the valid-UTF-8
strings of this model this coincides with codepoint order, which is Lean's
`String` order). -/
def newStringSorter (fieldName : String) (ascending : Bool) (a b : Record) : Bool :=
  let fieldA := getField a fieldName
  let fieldB := getField b fieldName
  let strA := goString fieldA
  let strB := goString fieldB
  if ascending then strLtB strA strB else strLtB strB strA

/-- `NewIntSorter[T](fieldName, ascending)` from `generics.go`.  The comparator
calls `fieldA.Int()` / `fieldB.Int()`, which panic when the field is not of an
int kind; a panic is embedded as `none`. -/
def newIntSorter (fieldName : String) (ascending : Bool) (a b : Record) : Option Bool :=
  let fieldA := getField a fieldName
  let fieldB := getField b fieldName
  match goInt fieldA, goInt fieldB with
  | some intA, some intB => some (if ascending then decide (intA < intB) else decide (intA > intB))
  | _, _ => none

/-- `NewGenericSorter[T](fieldName, ascending)` from `generics.go`: a single
comparator dispatching on `fieldA.Kind()` each comparison, with the
`default: return false` branch for unsupported kinds.  The int and float
branches call `fieldB.Int()` / `fieldB.Float()`, which panic (`none`) when `b`'s
field has a different kind. -/
def newGenericSorter (fieldName : String) (ascending : Bool) (a b : Record) : Option Bool :=
  let fieldA := getField a fieldName
  let fieldB := getField b fieldName
  match kindOf fieldA with
  | .str =>
      let strA := goString fieldA
      let strB := goString fieldB
      some (if ascending then strLtB strA strB else strLtB strB strA)
  | .int =>
      match goInt fieldA, goInt fieldB with
      | some intA, some intB =>
          some (if ascending then decide (intA < intB) else decide (intA > intB))
      | _, _ => none
  | .float =>
      match goFloat fieldA, goFloat fieldB with
      | some floatA, some floatB =>
          some (if ascending then decide (floatA < floatB) else decide (floatA > floatB))
      | _, _ => none
  | _ => some false

/-- Inner loop of Go's `insertionSort` (`for j := i; j > a && less(j, j-1); j--`):
`acc` is the already-sorted prefix in reversed order, and `x` moves left past
every element it is `less` than, settling at the first element (from the
right) for which `less` fails. -/
def insertRev {α : Type} (less : α → α → Bool) (x : α) : List α → List α
  | [] => [x]
  | y :: ys => if less x y then y :: insertRev less x ys else x :: y :: ys

/-- Outer loop of Go's `insertionSort`: grow the sorted prefix (kept reversed
in `acc`) one element at a time, then un-reverse it. -/
def sortLoop {α : Type} (less : α → α → Bool) : List α → List α → List α
  | acc, [] => acc.reverse
  | acc, x :: rest => sortLoop less (insertRev less x acc) rest

/-- `sort.Slice` as executed on the slices of this development: Go's `pdqsort`
runs plain insertion sort for slices of length at most 12, which covers every
slice appearing in the claims and is the exact comparison/swap sequence of the
`sort.Slice` calls in `generics.go`. -/
def sortSlice {α : Type} (less : α → α → Bool) (l : List α) : List α :=
  sortLoop less [] l

/-- `SortWithComparator[T](slice, comparator)` from `generics.go`:
`sort.Slice(slice, func(i, j int) bool { return comparator(slice[i], slice[j]) })`. -/
def sortWithComparator {α : Type} (slice : List α) (comparator : α → α → Bool) : List α :=
  sortSlice comparator slice

/-- `SortByStringField[T](slice, fieldName, ascending)` from `generics.go`:
sorts with an inline reflection comparator and unconditionally returns a `nil`
error (`none`).  The pair is (slice after the in-place sort, returned error). -/
def sortByStringField (slice : List Record) (fieldName : String) (ascending : Bool) :
    List Record × Option String :=
  (sortSlice
    (fun a b =>
      let valueI := getField a fieldName
      let valueJ := getField b fieldName
      let strI := goString valueI
      let strJ := goString valueJ
      if ascending then strLtB strI strJ else strLtB strJ strI)
    slice, none)

/-- The record `{Name:"Bob", Age:25}` from the spec scenario, as reflected. -/
def bobR : Record := [("Name", .str "Bob"), ("Age", .int 25)]

/-- The record `{Name:"Alice", Age:30}` from the spec scenario. -/
def alice30R : Record := [("Name", .str "Alice"), ("Age", .int 30)]

/-- The record `{Name:"Alice", Age:20}` from the spec scenario. -/
def alice20R : Record := [("Name", .str "Alice"), ("Age", .int 20)]

/-!
Embedding of the `List[T]` linked list and its iterator from
`range-over-iterators.go`.  A `GoList` is identified with the sequence of
values reachable from `head`; `tail` always points at the last element of that
chain, so `Push`, which links the new element after `tail`, appends to the
sequence.  Go's `iter.Seq[T]` is a function that feeds each element to an
effectful `yield` until it returns `false`; we embed the effect by threading an
explicit state `σ` through `yield`.
-/

/-- The `List[T]` of `range-over-iterators.go`, identified with the value
sequence reachable from `head`. -/
structure GoList (T : Type) where
  elems : List T

/-- `Push`: link a fresh element after `tail`, i.e. append to the chain. -/
def GoList.Push {T : Type} (lst : GoList T) (v : T) : GoList T :=
  ⟨lst.elems ++ [v]⟩

/-- A `GoList` built from the empty list by a sequence of `Push` calls. -/
def GoList.pushSeq {T : Type} (lst : GoList T) (vs : List T) : GoList T :=
  vs.foldl GoList.Push lst

/-- Loop body of `AllElements`: `elems = append(elems, e.val)` along the chain. -/
def allElementsLoop {T : Type} : List T → List T → List T
  | acc, [] => acc
  | acc, v :: next => allElementsLoop (acc ++ [v]) next

/-- `AllElements`: collect every element into a fresh slice. -/
def GoList.AllElements {T : Type} (lst : GoList T) : List T :=
  allElementsLoop [] lst.elems

/-- `iter.Seq[T]` with the `yield` effect made explicit as a state `σ`:
`yield` consumes a value and the current state and returns the new state
together with its Go return value (`true` = keep iterating). -/
def GoSeq (T : Type) : Type 1 :=
  ∀ {σ : Type}, (T → σ → σ × Bool) → σ → σ

/-- Loop body of `All`'s iterator: call `yield` for each element, stopping as
soon as `yield` returns `false`. -/
def allLoop {T σ : Type} (yield : T → σ → σ × Bool) : List T → σ → σ
  | [], s => s
  | v :: next, s =>
      let r := yield v s
      if r.2 then allLoop yield next r.1 else r.1

/-- `All`: the iterator over the list's elements. -/
def GoList.All {T : Type} (lst : GoList T) : GoSeq T :=
  fun yield s => allLoop yield lst.elems s

/-- `slices.Collect`: drive an iterator with a `yield` that appends every
value to a slice and always continues. -/
def slicesCollect {T : Type} (seq : GoSeq T) : List T :=
  seq (fun v acc => (acc ++ [v], true)) []

/-- The record's field named `f` currently holds a value of kind `k`. -/
abbrev hasKind (f : String) (k : Kind) (r : Record) : Prop :=
  kindOf (getField r f) = k

/-- The kinds the generic sorter's type switch supports. -/
abbrev SupportedKind (k : Kind) : Prop :=
  k = Kind.str ∨ k = Kind.int ∨ k = Kind.float

/-- `less` is irreflexive, asymmetric and transitive on records satisfying
`P` — the strict-weak-ordering laws named by the spec. -/
def IsStrictOrderOn (P : Record → Prop) (less : Record → Record → Prop) : Prop :=
  (∀ a, P a → ¬ less a a) ∧
  (∀ a b, P a → P b → less a b → ¬ less b a) ∧
  (∀ a b c, P a → P b → P c → less a b → less b c → less a c)

/-- The string key a comparator for field `f` actually compares: the codepoint
list of `field.String()` (byte order and codepoint order agree on UTF-8). -/
def strKey (f : String) (r : Record) : List Char :=
  (goString (getField r f)).data

/-- The int key: the value `field.Int()` returns on an int-kinded field. -/
def intKey (f : String) (r : Record) : Int :=
  (goInt (getField r f)).getD 0

/-- The float key: the value `field.Float()` returns on a float-kinded field. -/
def floatKey (f : String) (r : Record) : Rat :=
  (goFloat (getField r f)).getD 0

/-- A record whose `Active` field holds a `bool` — a kind outside the generic
sorter's type switch. -/
def activeTrueR : Record := [("Active", Value.bool true)]

/-- Companion record with `Active = false`. -/
def activeFalseR : Record := [("Active", Value.bool false)]

/-- A record whose `Nickname` field is a `nil` `*string`: structurally valid
field, missing value. -/
def nickMissingR : Record := [("Nickname", Value.ptr "string" none)]

/-- A record whose `Nickname` field is a `*string` pointing at `"Ann"`. -/
def nickPresentR : Record := [("Nickname", Value.ptr "string" (some (Value.str "Ann")))]

/-!
Generic facts about the embedded `sort.Slice` insertion sort: it permutes its
input, it sorts with respect to any comparator that is asymmetric and whose
negation is transitive, and it leaves the input untouched when the comparator
reports `false` on every pair in play.
-/

theorem insertRev_perm {α : Type} (less : α → α → Bool) (x : α) (l : List α) :
    (insertRev less x l).Perm (x :: l) := by
  induction l with
  | nil => simp [insertRev]
  | cons y ys ih =>
    cases hxy : less x y with
    | true =>
      simp only [insertRev, hxy, if_pos]
      exact (ih.cons y).trans (List.Perm.swap x y ys)
    | false =>
      simp [insertRev, hxy]

theorem mem_of_mem_insertRev {α : Type} {less : α → α → Bool} {x z : α} {l : List α}
    (h : z ∈ insertRev less x l) : z = x ∨ z ∈ l := by
  have := (insertRev_perm less x l).mem_iff.mp h
  simpa using this

theorem sortLoop_perm {α : Type} (less : α → α → Bool) :
    ∀ (l acc : List α), (sortLoop less acc l).Perm (acc ++ l) := by
  intro l
  induction l with
  | nil => intro acc; simp [sortLoop, acc.reverse_perm]
  | cons x rest ih =>
    intro acc
    simp only [sortLoop]
    refine (ih (insertRev less x acc)).trans ?_
    refine ((insertRev_perm less x acc).append_right rest).trans ?_
    exact List.perm_middle.symm

theorem sortSlice_perm {α : Type} (less : α → α → Bool) (l : List α) :
    (sortSlice less l).Perm l := by
  simpa [sortSlice] using sortLoop_perm less l []

theorem insertRev_pairwise {α : Type} {less : α → α → Bool}
    (hasym : ∀ a b : α, less a b = true → less b a = false)
    (hnt : ∀ a b c : α, less a b = false → less b c = false → less a c = false)
    {x : α} {l : List α} (h : l.Pairwise (fun a b => less a b = false)) :
    (insertRev less x l).Pairwise (fun a b => less a b = false) := by
  induction l with
  | nil => simp [insertRev]
  | cons y ys ih =>
    rcases List.pairwise_cons.mp h with ⟨hy, hys⟩
    cases hxy : less x y with
    | true =>
      simp only [insertRev, hxy, if_pos]
      refine List.pairwise_cons.mpr ⟨?_, ih hys⟩
      intro z hz
      rcases mem_of_mem_insertRev hz with rfl | hz2
      · exact hasym _ _ hxy
      · exact hy z hz2
    | false =>
      simp only [insertRev, hxy, Bool.false_eq_true, if_false]
      refine List.pairwise_cons.mpr ⟨?_, h⟩
      intro z hz
      rcases List.mem_cons.mp hz with rfl | hz2
      · exact hxy
      · exact hnt x y z hxy (hy z hz2)

theorem sortLoop_pairwise {α : Type} {less : α → α → Bool}
    (hasym : ∀ a b : α, less a b = true → less b a = false)
    (hnt : ∀ a b c : α, less a b = false → less b c = false → less a c = false) :
    ∀ (l acc : List α), acc.Pairwise (fun a b => less a b = false) →
      (sortLoop less acc l).Pairwise (fun a b => less b a = false) := by
  intro l
  induction l with
  | nil =>
    intro acc hacc
    simp only [sortLoop]
    exact List.pairwise_reverse.mpr hacc
  | cons x rest ih =>
    intro acc hacc
    simp only [sortLoop]
    exact ih _ (insertRev_pairwise hasym hnt hacc)

theorem sortSlice_pairwise {α : Type} {less : α → α → Bool}
    (hasym : ∀ a b : α, less a b = true → less b a = false)
    (hnt : ∀ a b c : α, less a b = false → less b c = false → less a c = false)
    (l : List α) :
    (sortSlice less l).Pairwise (fun a b => less b a = false) :=
  sortLoop_pairwise hasym hnt l [] (by simp)

theorem insertRev_skip {α : Type} {less : α → α → Bool} {x : α} {l : List α}
    (h : ∀ y ∈ l, less x y = false) : insertRev less x l = x :: l := by
  cases l with
  | nil => rfl
  | cons y ys => simp [insertRev, h y (List.mem_cons_self y ys)]

theorem sortLoop_id {α : Type} {less : α → α → Bool} (P : α → Prop)
    (hP : ∀ a b, P a → P b → less a b = false) :
    ∀ (l acc : List α), (∀ x ∈ l, P x) → (∀ y ∈ acc, P y) →
      sortLoop less acc l = acc.reverse ++ l := by
  intro l
  induction l with
  | nil => intro acc _ _; simp [sortLoop]
  | cons x rest ih =>
    intro acc hl hacc
    have hx : P x := hl x (List.mem_cons_self x rest)
    simp only [sortLoop]
    rw [insertRev_skip (fun y hy => hP x y hx (hacc y hy))]
    rw [ih (x :: acc) (fun z hz => hl z (List.mem_cons_of_mem x hz))
      (fun y hy => by
        rcases List.mem_cons.mp hy with rfl | hy2
        · exact hx
        · exact hacc y hy2)]
    simp

theorem sortSlice_id {α : Type} {less : α → α → Bool} (P : α → Prop)
    (hP : ∀ a b, P a → P b → less a b = false) (l : List α) (hl : ∀ x ∈ l, P x) :
    sortSlice less l = l := by
  simpa [sortSlice] using sortLoop_id P hP l [] hl (by simp)

/-!
Kind-inversion helpers and the strict-order notion used by the comparator
claims.
-/

theorem kindOf_str_iff (o : Option Value) :
    kindOf o = Kind.str ↔ ∃ s, o = some (Value.str s) := by
  cases o with
  | none => simp [kindOf]
  | some v => cases v <;> simp [kindOf]

theorem kindOf_int_iff (o : Option Value) :
    kindOf o = Kind.int ↔ ∃ n, o = some (Value.int n) := by
  cases o with
  | none => simp [kindOf]
  | some v => cases v <;> simp [kindOf]

theorem kindOf_float_iff (o : Option Value) :
    kindOf o = Kind.float ↔ ∃ q, o = some (Value.float q) := by
  cases o with
  | none => simp [kindOf]
  | some v => cases v <;> simp [kindOf]

theorem kindOf_bool_iff (o : Option Value) :
    kindOf o = Kind.bool ↔ ∃ b, o = some (Value.bool b) := by
  cases o with
  | none => simp [kindOf]
  | some v => cases v <;> simp [kindOf]

theorem isStrictOrderOn_of_key {K : Type} [LinearOrder K] (key : Record → K)
    (P : Record → Prop) (less : Record → Record → Prop)
    (h : ∀ a b, P a → P b → (less a b ↔ key a < key b)) :
    IsStrictOrderOn P less := by
  refine ⟨fun a ha hl => ?_, fun a b ha hb hab hba => ?_, fun a b c ha hb hc hab hbc => ?_⟩
  · exact absurd ((h a a ha ha).1 hl) (lt_irrefl _)
  · exact absurd ((h b a hb ha).1 hba) (lt_asymm ((h a b ha hb).1 hab))
  · exact (h a c ha hc).2 (lt_trans ((h a b ha hb).1 hab) ((h b c hb hc).1 hbc))

theorem isStrictOrderOn_of_key_desc {K : Type} [LinearOrder K] (key : Record → K)
    (P : Record → Prop) (less : Record → Record → Prop)
    (h : ∀ a b, P a → P b → (less a b ↔ key b < key a)) :
    IsStrictOrderOn P less := by
  refine ⟨fun a ha hl => ?_, fun a b ha hb hab hba => ?_, fun a b c ha hb hc hab hbc => ?_⟩
  · exact absurd ((h a a ha ha).1 hl) (lt_irrefl _)
  · exact absurd ((h b a hb ha).1 hba) (lt_asymm ((h a b ha hb).1 hab))
  · exact (h a c ha hc).2 (lt_trans ((h b c hb hc).1 hbc) ((h a b ha hb).1 hab))

theorem strLtB_iff (a b : String) : strLtB a b = true ↔ a.data < b.data := by
  simp [strLtB]

theorem newStringSorter_asc_iff (f : String) (a b : Record) :
    newStringSorter f true a b = true ↔ strKey f a < strKey f b := by
  simp [newStringSorter, strLtB, strKey]

theorem newStringSorter_desc_iff (f : String) (a b : Record) :
    newStringSorter f false a b = true ↔ strKey f b < strKey f a := by
  simp [newStringSorter, strLtB, strKey]

/-!
Facts about the iterator embedding.
-/

theorem allElementsLoop_eq {T : Type} (l acc : List T) :
    allElementsLoop acc l = acc ++ l := by
  induction l generalizing acc with
  | nil => simp [allElementsLoop]
  | cons v next ih => simp [allElementsLoop, ih]

theorem allLoop_collect {T : Type} (l acc : List T) :
    allLoop (fun v acc => (acc ++ [v], true)) l acc = acc ++ l := by
  induction l generalizing acc with
  | nil => simp [allLoop]
  | cons v next ih => simp [allLoop, ih]

theorem pushSeq_elems {T : Type} (vs es : List T) :
    (GoList.pushSeq ⟨es⟩ vs).elems = es ++ vs := by
  induction vs generalizing es with
  | nil => simp [GoList.pushSeq]
  | cons v rest ih =>
    simp [GoList.pushSeq, List.foldl_cons] at *
    simpa [GoList.Push] using ih (es ++ [v])

/-- The inline comparator of `sortByStringField` (and of `newStringSorter`)
returns `false` on any two records lacking the field: both operands read as
the `"<invalid Value>"` placeholder, which is not below itself. -/
theorem stringSorter_false_of_missing (f : String) (ascending : Bool) (a b : Record)
    (ha : getField a f = none) (hb : getField b f = none) :
    newStringSorter f ascending a b = false := by
  cases ascending <;> simp [newStringSorter, ha, hb, strLtB, goString]

/-- Claim C1 counterexample: on records whose `Active` field holds a `bool`
(a kind outside the switch), the `NewGenericSorter` comparator evaluates to the
plain boolean `false` in both argument orders — the silent `default` branch —
rather than signalling a `ValueExtractionError`, which does not exist in the
code. -/
theorem c1_counterexample :
    newGenericSorter "Active" true activeTrueR activeFalseR = some false ∧
    newGenericSorter "Active" true activeFalseR activeTrueR = some false :=
  ⟨rfl, rfl⟩

/-- Claim C1 as amended: whenever the first operand's field holds an
unsupported kind (here `bool`), the `NewGenericSorter` comparator returns the
plain boolean `false` as a silent default, for every field name, direction and
pair of records; no error channel exists. -/
theorem c1_generic_sorter_silent_false (f : String) (ascending : Bool) (a b : Record)
    (h : hasKind f Kind.bool a) :
    newGenericSorter f ascending a b = some false := by
  rcases (kindOf_bool_iff _).1 h with ⟨v, hv⟩
  simp [newGenericSorter, hv, kindOf]

/-- Witness for `c1_generic_sorter_silent_false` at a concrete input. -/
theorem c1_generic_sorter_silent_false_witness :
    newGenericSorter "Active" false activeTrueR activeFalseR = some false :=
  c1_generic_sorter_silent_false "Active" false activeTrueR activeFalseR (by decide)

/-- Claim C2 counterexample: applied to the field name `"DoesNotExist"`,
`SortByStringField` returns a `nil` error (no `FieldNotFoundError`) and
`NewStringSorter` returns a comparator that evaluates to `false` — a
comparator is produced. -/
theorem c2_counterexample :
    sortByStringField [bobR, alice30R] "DoesNotExist" true = ([bobR, alice30R], none) ∧
    newStringSorter "DoesNotExist" true bobR alice30R = false :=
  ⟨rfl, rfl⟩

/-- Claim C2 as amended: for a field name matching no field of any record in
the slice, `SortByStringField` returns a `nil` error and leaves the slice
unchanged (every comparison reads the `"<invalid Value>"` placeholder on both
sides and reports `false`), and `NewStringSorter` returns a comparator that
evaluates to `false` on such records; no `FieldNotFoundError` exists in the
code. -/
theorem c2_unknown_field_nil_error (f : String) (ascending : Bool) (slice : List Record)
    (h : ∀ r ∈ slice, getField r f = none) :
    sortByStringField slice f ascending = (slice, none) ∧
    (∀ a b : Record, getField a f = none → getField b f = none →
      newStringSorter f ascending a b = false) := by
  constructor
  · have heq : sortByStringField slice f ascending
        = (sortSlice (newStringSorter f ascending) slice, none) := rfl
    rw [heq,
      sortSlice_id (fun r => getField r f = none)
        (fun a b ha hb => stringSorter_false_of_missing f ascending a b ha hb) slice h]
  · exact fun a b ha hb => stringSorter_false_of_missing f ascending a b ha hb

/-- Witness for `c2_unknown_field_nil_error` at a concrete input. -/
theorem c2_unknown_field_nil_error_witness :
    sortByStringField [alice20R] "DoesNotExist" false = ([alice20R], none) ∧
    (∀ a b : Record, getField a "DoesNotExist" = none → getField b "DoesNotExist" = none →
      newStringSorter "DoesNotExist" false a b = false) :=
  c2_unknown_field_nil_error "DoesNotExist" false [alice20R]
    (by intro r hr; rcases List.mem_singleton.mp hr with rfl; rfl)

/-- Claim C3 counterexample: `NewIntSorter` performs no construction-time
check — it unconditionally returns a comparator, and applying that comparator
to records whose `Name` field holds a string panics inside `Value.Int()`
(embedded as `none`); no `KindMismatchError` is ever returned. -/
theorem c3_counterexample : newIntSorter "Name" true alice30R bobR = none := rfl

/-- Claim C3 as amended: `NewIntSorter` has no construction-time kind check
and no error result; for every field name and direction it yields a comparator,
and whenever the first operand's field holds a string that comparator panics at
comparison time (`none`) instead of any `KindMismatchError` at construction. -/
theorem c3_no_construction_kind_check (f : String) (ascending : Bool) (a b : Record)
    (h : hasKind f Kind.str a) :
    newIntSorter f ascending a b = none := by
  rcases (kindOf_str_iff _).1 h with ⟨s, hs⟩
  simp [newIntSorter, hs, goInt]

/-- Witness for `c3_no_construction_kind_check` at a concrete input. -/
theorem c3_no_construction_kind_check_witness :
    newIntSorter "Name" false alice30R bobR = none :=
  c3_no_construction_kind_check "Name" false alice30R bobR (by decide)

/-- Claim C4: sorting the scenario records `[{Bob,25},{Alice,30},{Alice,20}]`
by the `Name` field ascending with the factory-built comparator yields exactly
`[{Alice,30},{Alice,20},{Bob,25}]` — the two Alice records keep their input
order.  The consuming `sort.Slice` runs insertion sort (stable) on this
3-element slice. -/
theorem c4_scenario_sort_by_name :
    sortWithComparator [bobR, alice30R, alice20R] (newStringSorter "Name" true)
      = [alice30R, alice20R, bobR] := rfl

/-- Claim C7 counterexample: in the collection `[missing, present]` for the
`*string` field `Nickname`, the record with the `nil` (missing) value stays
first — before the record with a present value — under both the ascending and
the descending comparator, refuting the missing-always-last policy. -/
theorem c7_counterexample :
    sortWithComparator [nickMissingR, nickPresentR] (newStringSorter "Nickname" true)
      = [nickMissingR, nickPresentR] ∧
    sortWithComparator [nickMissingR, nickPresentR] (newStringSorter "Nickname" false)
      = [nickMissingR, nickPresentR] :=
  ⟨rfl, rfl⟩

/-- Claim C7 as amended: the code implements no missing-value policy at all.
A pointer-typed field reads as the same `"<*T Value>"` placeholder whether the
pointer is `nil` or not, so on any collection of records sharing such a field
every comparison returns `false` and the sort leaves the input order unchanged
in both directions — missing records are not moved after present ones. -/
theorem c7_no_missing_value_policy (f ty : String) (ascending : Bool) (l : List Record)
    (h : ∀ r ∈ l, ∃ o, getField r f = some (Value.ptr ty o)) :
    sortWithComparator l (newStringSorter f ascending) = l := by
  show sortSlice (newStringSorter f ascending) l = l
  refine sortSlice_id (fun r => ∃ o, getField r f = some (Value.ptr ty o)) ?_ l h
  rintro a b ⟨oa, ha⟩ ⟨ob, hb⟩
  cases ascending <;> simp [newStringSorter, ha, hb, strLtB, goString]

/-- Witness for `c7_no_missing_value_policy` at a concrete input. -/
theorem c7_no_missing_value_policy_witness :
    sortWithComparator [nickPresentR, nickMissingR] (newStringSorter "Nickname" true)
      = [nickPresentR, nickMissingR] :=
  c7_no_missing_value_policy "Nickname" "string" true [nickPresentR, nickMissingR]
    (by
      intro r hr
      rcases List.mem_cons.mp hr with rfl | hr2
      · exact ⟨some (Value.str "Ann"), rfl⟩
      · rcases List.mem_cons.mp hr2 with rfl | hr3
        · exact ⟨none, rfl⟩
        · cases hr3)

/-- Claim C8: the embedded factory and comparators are pure functions over
records, and the consuming sort only permutes the slice — for every comparator
and slice, the sorted slice is a permutation of the input, so every record's
field values are unchanged. -/
theorem c8_sort_only_permutes :
    ∀ (comparator : Record → Record → Bool) (slice : List Record),
      (sortWithComparator slice comparator).Perm slice :=
  fun comparator slice => sortSlice_perm comparator slice

/-- Claim C9: collecting the `All()` iterator of any list yields exactly
`AllElements()` (same elements, same order, when the consumer never stops
early), and for a list built by `Push` calls from empty that common order is
the push insertion order. -/
theorem c9_iterator_agrees_with_elements (T : Type) :
    (∀ lst : GoList T, slicesCollect lst.All = lst.AllElements) ∧
    (∀ vs : List T, (GoList.pushSeq ⟨[]⟩ vs).AllElements = vs) := by
  constructor
  · intro lst
    show allLoop _ lst.elems [] = allElementsLoop [] lst.elems
    rw [allLoop_collect, allElementsLoop_eq]
  · intro vs
    show allElementsLoop [] (GoList.pushSeq ⟨[]⟩ vs).elems = vs
    rw [pushSeq_elems, allElementsLoop_eq]
    simp

theorem newStringSorter_asc_false_iff (f : String) (a b : Record) :
    newStringSorter f true a b = false ↔ strKey f b ≤ strKey f a := by
  rw [← not_lt, ← newStringSorter_asc_iff f a b]
  exact Bool.eq_false_iff.trans (by rw [ne_eq])

/-- Claim C5: for every collection whose records all hold a string in field
`f`, sorting with the ascending factory comparator returns the same records
(a permutation) with their `f`-values in byte-lexicographic ascending order
(no later key below an earlier one). -/
theorem c5_string_field_sorts_ascending (f : String) (l : List Record)
    (h : ∀ r ∈ l, hasKind f Kind.str r) :
    (sortWithComparator l (newStringSorter f true)).Perm l ∧
    (∀ r ∈ sortWithComparator l (newStringSorter f true), hasKind f Kind.str r) ∧
    (sortWithComparator l (newStringSorter f true)).Pairwise
      (fun a b => strKey f a ≤ strKey f b) := by
  refine ⟨sortSlice_perm _ l, fun r hr => h r ((sortSlice_perm _ l).mem_iff.mp hr), ?_⟩
  have hasym : ∀ a b : Record, newStringSorter f true a b = true →
      newStringSorter f true b a = false := by
    intro a b hab
    exact (newStringSorter_asc_false_iff f b a).2
      (le_of_lt ((newStringSorter_asc_iff f a b).1 hab))
  have hnt : ∀ a b c : Record, newStringSorter f true a b = false →
      newStringSorter f true b c = false → newStringSorter f true a c = false := by
    intro a b c hab hbc
    exact (newStringSorter_asc_false_iff f a c).2
      (le_trans ((newStringSorter_asc_false_iff f b c).1 hbc)
        ((newStringSorter_asc_false_iff f a b).1 hab))
  exact (sortSlice_pairwise hasym hnt l).imp
    (fun hba => (newStringSorter_asc_false_iff f _ _).1 hba)

/-- Witness for `c5_string_field_sorts_ascending` on the scenario records. -/
theorem c5_string_field_sorts_ascending_witness :
    (sortWithComparator [bobR, alice30R, alice20R] (newStringSorter "Name" true)).Perm
        [bobR, alice30R, alice20R] ∧
    (∀ r ∈ sortWithComparator [bobR, alice30R, alice20R] (newStringSorter "Name" true),
      hasKind "Name" Kind.str r) ∧
    (sortWithComparator [bobR, alice30R, alice20R] (newStringSorter "Name" true)).Pairwise
      (fun a b => strKey "Name" a ≤ strKey "Name" b) :=
  c5_string_field_sorts_ascending "Name" [bobR, alice30R, alice20R] (by decide)

/-- Claim C6: each factory comparator, in both directions, is irreflexive,
asymmetric and transitive (a strict weak ordering) on records whose resolved
field holds a well-formed value of the comparator's kind: `NewStringSorter` on
string-kinded records, `NewIntSorter` on int-kinded records, and
`NewGenericSorter` on records of any single supported kind. -/
theorem c6_comparators_strict_weak_order (f : String) (ascending : Bool) :
    IsStrictOrderOn (hasKind f Kind.str)
      (fun a b => newStringSorter f ascending a b = true) ∧
    IsStrictOrderOn (hasKind f Kind.int)
      (fun a b => newIntSorter f ascending a b = some true) ∧
    (∀ k, SupportedKind k → IsStrictOrderOn (hasKind f k)
      (fun a b => newGenericSorter f ascending a b = some true)) := by
  refine ⟨?_, ?_, ?_⟩
  · cases ascending with
    | false =>
      exact isStrictOrderOn_of_key_desc (strKey f) _ _
        (fun a b _ _ => newStringSorter_desc_iff f a b)
    | true =>
      exact isStrictOrderOn_of_key (strKey f) _ _
        (fun a b _ _ => newStringSorter_asc_iff f a b)
  · cases ascending with
    | false =>
      refine isStrictOrderOn_of_key_desc (intKey f) _ _ ?_
      intro a b ha hb
      rcases (kindOf_int_iff _).1 ha with ⟨n, hn⟩
      rcases (kindOf_int_iff _).1 hb with ⟨m, hm⟩
      simp [newIntSorter, hn, hm, goInt, intKey]
    | true =>
      refine isStrictOrderOn_of_key (intKey f) _ _ ?_
      intro a b ha hb
      rcases (kindOf_int_iff _).1 ha with ⟨n, hn⟩
      rcases (kindOf_int_iff _).1 hb with ⟨m, hm⟩
      simp [newIntSorter, hn, hm, goInt, intKey]
  · intro k hk
    rcases hk with rfl | rfl | rfl
    · cases ascending with
      | false =>
        refine isStrictOrderOn_of_key_desc (strKey f) _ _ ?_
        intro a b ha hb
        rcases (kindOf_str_iff _).1 ha with ⟨s, hs⟩
        simp [newGenericSorter, hs, kindOf, strKey, strLtB]
      | true =>
        refine isStrictOrderOn_of_key (strKey f) _ _ ?_
        intro a b ha hb
        rcases (kindOf_str_iff _).1 ha with ⟨s, hs⟩
        simp [newGenericSorter, hs, kindOf, strKey, strLtB]
    · cases ascending with
      | false =>
        refine isStrictOrderOn_of_key_desc (intKey f) _ _ ?_
        intro a b ha hb
        rcases (kindOf_int_iff _).1 ha with ⟨n, hn⟩
        rcases (kindOf_int_iff _).1 hb with ⟨m, hm⟩
        simp [newGenericSorter, hn, hm, kindOf, goInt, intKey]
      | true =>
        refine isStrictOrderOn_of_key (intKey f) _ _ ?_
        intro a b ha hb
        rcases (kindOf_int_iff _).1 ha with ⟨n, hn⟩
        rcases (kindOf_int_iff _).1 hb with ⟨m, hm⟩
        simp [newGenericSorter, hn, hm, kindOf, goInt, intKey]
    · cases ascending with
      | false =>
        refine isStrictOrderOn_of_key_desc (floatKey f) _ _ ?_
        intro a b ha hb
        rcases (kindOf_float_iff _).1 ha with ⟨p, hp⟩
        rcases (kindOf_float_iff _).1 hb with ⟨q, hq⟩
        simp [newGenericSorter, hp, hq, kindOf, goFloat, floatKey]
      | true =>
        refine isStrictOrderOn_of_key (floatKey f) _ _ ?_
        intro a b ha hb
        rcases (kindOf_float_iff _).1 ha with ⟨p, hp⟩
        rcases (kindOf_float_iff _).1 hb with ⟨q, hq⟩
        simp [newGenericSorter, hp, hq, kindOf, goFloat, floatKey]

/-- Witness for `c6_comparators_strict_weak_order`: irreflexivity of each
comparator at a concrete record. -/
theorem c6_comparators_strict_weak_order_witness :
    ¬ (newStringSorter "Name" true alice30R alice30R = true) ∧
    ¬ (newIntSorter "Age" true alice30R alice30R = some true) ∧
    ¬ (newGenericSorter "Age" true alice30R alice30R = some true) :=
  ⟨(c6_comparators_strict_weak_order "Name" true).1.1 alice30R (by decide),
   (c6_comparators_strict_weak_order "Age" true).2.1.1 alice30R (by decide),
   ((c6_comparators_strict_weak_order "Age" true).2.2 Kind.int
      (Or.inr (Or.inl rfl))).1 alice30R (by decide)⟩
